import Mathlib

/-!
Verification of the instruction-encoding core of the rvref repository
(`src/unnamed/part_000`, first document).  JavaScript strings are modelled
as `String` / `List Char` (the inputs of interest are ASCII, so JS UTF-16
code units coincide with Lean characters), JS numbers as `Int`, JS `null` /
`undefined` as `Option`, and JS field-kind strings ("var", "const", "gap")
as plain `String`s.
-/

namespace Rvref

/-! ## Data model -/

/-- One contiguous bit range `{from, to}` as produced by
`parseLocationSegments` (`from` is the high bit, `to` the low bit; the
source's `from` field is spelled `hi` here because `from` is a Lean
keyword). -/
structure BitSeg where
  hi : Int
  lo : Int
deriving DecidableEq, Repr

/-- A resolved field as produced by `computeFields`: JS object
`{label, from, to, width, kind, segments?}`. `segments` is only present on
variable fields. -/
structure Field where
  label : String
  hi : Int
  lo : Int
  width : Int
  kind : String
  segments : Option (List BitSeg)
deriving DecidableEq, Repr

/-- An entry of the expanded / gap-filled layout built by
`standardizeBitfieldFields`: JS object `{label, from, to, width, kind}`. -/
structure LayoutSeg where
  label : String
  hi : Int
  lo : Int
  width : Int
  kind : String
deriving DecidableEq, Repr

/-- A variable-field spec `{name, location}` from the encoding record;
`location` is absent (`undefined`) or a string. -/
structure VarSpec where
  name : String
  location : Option String
deriving DecidableEq, Repr

/-- The (already variant-selected) encoding record
`{match: string|null, variables}`. The source's `match` and `variables`
fields are spelled `matchStr` and `vars` because both are Lean keywords. -/
structure Encoding where
  matchStr : Option String
  vars : List VarSpec
deriving DecidableEq, Repr

/-! ## JS string primitives, modelled on `List Char`

Lean's own `String.split`/`String.trim` are defined by well-founded
recursion on byte positions and do not reduce inside the kernel, so the
JS string primitives used by the source are modelled directly on the
character list. -/

/-- JS `str.split(sep)` for a single-character separator: splits into the
(possibly empty) pieces between occurrences of `sep`; `"".split(sep)`
gives `[""]`. -/
def splitOnChar (sep : Char) : List Char → List (List Char)
  | [] => [[]]
  | c :: rest =>
    if c = sep then [] :: splitOnChar sep rest
    else
      match splitOnChar sep rest with
      | [] => [[c]]
      | p :: ps => (c :: p) :: ps

/-- Whitespace characters removed by JS `trim` (restricted to the ASCII
whitespace that can occur in the YAML location strings). -/
def isJsSpace (c : Char) : Bool :=
  c = ' ' || c = '\t' || c = '\n' || c = '\r'

/-- JS `str.trim()`: strip whitespace from both ends. -/
def trimChars (cs : List Char) : List Char :=
  ((cs.dropWhile isJsSpace).reverse.dropWhile isJsSpace).reverse

/-- Numeric value of a list of decimal digit characters (most significant
first), as folded up by JS `parseInt`. -/
def digitsVal (ds : List Char) : Int :=
  ds.foldl (fun acc d => acc * 10 + (Int.ofNat d.toNat - Int.ofNat '0'.toNat)) 0

/-- JS `parseInt(s, 10)` on an already-trimmed string: an optional sign
followed by at least one decimal digit; any trailing garbage is ignored;
no digits means `NaN` (modelled as `none`). -/
def parseIntBase10 (cs : List Char) : Option Int :=
  let (sign, body) : Int × List Char :=
    match cs with
    | '-' :: t => (-1, t)
    | '+' :: t => (1, t)
    | _ => (1, cs)
  let ds := body.takeWhile (fun c => c.isDigit)
  if ds.isEmpty then none else some (sign * digitsVal ds)

/-! ## MatchPatternParser (`parseMatchBits`) -/

/-- `parseMatchBits` from `src/unnamed/part_000`: reject falsy (empty)
strings and any length other than 32 or 16, otherwise explode into one
character per bit (JS `split("")`). -/
def parseMatchBits (matchStr : String) : Option (List Char) :=
  if matchStr = "" then none
  else if matchStr.length ≠ 32 ∧ matchStr.length ≠ 16 then none
  else some matchStr.data

/-! ## BitLocationParser (`parseLocationSegments`) -/

/-- The body of the `.map` in `parseLocationSegments`: split one piece on
`"-"`, trim the sub-pieces, `parseInt` the first as `hi` and the second as
`lo` (absent or empty second sub-piece means `lo = hi`), return `null` on
`NaN`, and normalize to `{from: max, to: min}`. -/
def parsePiece (part : List Char) : Option BitSeg :=
  let pieces := (splitOnChar '-' part).map trimChars
  let hiStr := pieces.headD []
  let loStr := pieces[1]?
  match parseIntBase10 hiStr with
  | none => none
  | some hi =>
    let lo? : Option Int :=
      match loStr with
      | some l => if l ≠ [] then parseIntBase10 l else some hi
      | none => some hi
    match lo? with
    | none => none
    | some lo => some ⟨max hi lo, min hi lo⟩

/-- The comparator `(b.from - a.from) || (b.to - a.to)` of
`parseLocationSegments`' final `.sort`, as the relation "`a` may come
before `b`": descending by `from`, ties broken by descending `to`. -/
def segLE (a b : BitSeg) : Prop :=
  b.hi < a.hi ∨ (a.hi = b.hi ∧ b.lo ≤ a.lo)

instance : DecidableRel segLE := fun a b => by
  unfold segLE; infer_instance

instance : IsTotal BitSeg segLE := by
  constructor; intro a b; unfold segLE; omega

instance : IsTrans BitSeg segLE := by
  constructor; intro a b c; unfold segLE; omega

/-- JS `Array.prototype.sort` with the descending-`(from, to)` comparator:
a stable sort, modelled by insertion sort. -/
def sortSegs (l : List BitSeg) : List BitSeg :=
  List.insertionSort segLE l

/-- The piece-list pipeline of `parseLocationSegments`:
`.map(trim).filter(Boolean).map(parse piece).filter(Boolean).sort(...)`. -/
def segmentsOfParts (parts : List (List Char)) : List BitSeg :=
  sortSegs (((parts.map trimChars).filter (fun p => !p.isEmpty)).filterMap parsePiece)

/-- `parseLocationSegments` from `src/unnamed/part_000`: `undefined`/`null`
yields `[]`, otherwise split the expression on `"|"` and run the piece
pipeline. -/
def parseLocationSegments (loc : Option String) : List BitSeg :=
  match loc with
  | none => []
  | some s => segmentsOfParts (splitOnChar '|' s.data)

/-! ## FieldResolver (`computeFields`) -/

/-- The constant-run label assignment of `computeFields`: `funct7` for span
`[31,25]`, `funct3` for `[14,12]`, `opcode` for `[6,0]`, `const`
otherwise, always `"<role>=<bits>"`. -/
def constLabel (hi lo : Int) (bits : List Char) : String :=
  if hi = 31 ∧ lo = 25 then "funct7=" ++ ⟨bits⟩
  else if hi = 14 ∧ lo = 12 then "funct3=" ++ ⟨bits⟩
  else if hi = 6 ∧ lo = 0 then "opcode=" ++ ⟨bits⟩
  else "const=" ++ ⟨bits⟩

/-- The constant field pushed for one maximal run: it starts at bit `hi`
and covers `run.length` bits downward; `bits` is the corresponding slice
of the match string (JS `.join("")` is the conversion back to a string
inside `constLabel`). -/
def mkConstField (hi : Int) (run : List Char) : Field :=
  let lo : Int := hi - run.length + 1
  { label := constLabel hi lo run
  , hi := hi
  , lo := lo
  , width := hi - lo + 1
  , kind := "const"
  , segments := none }

/-- The inner-loop guard `match[...] !== "-"` of the constant-run scan. -/
def notDash (d : Char) : Bool := d != '-'

@[simp] theorem notDash_eq_true {d : Char} : notDash d = true ↔ d ≠ '-' := by
  simp [notDash]

@[simp] theorem notDash_eq_false {d : Char} : notDash d = false ↔ d = '-' := by
  simp [notDash]

/-- The constant-run scan of `computeFields` (the `while (bit >= 0)` loop):
walk the match characters from the most-significant end with `bit` the
current bit index; a `'-'` moves on, anything else starts a maximal run
consumed by the inner `while` (here `takeWhile`/`dropWhile`).  The `fuel`
argument only bounds the number of outer iterations — every iteration
consumes at least one character, so `fuel = cs.length` (as passed by
`computeConstFields`) is always enough. -/
def scanConstsF : Nat → List Char → Int → List Field
  | 0, _, _ => []
  | _ + 1, [], _ => []
  | fuel + 1, c :: rest, bit =>
    if c = '-' then scanConstsF fuel rest (bit - 1)
    else
      let run := c :: rest.takeWhile notDash
      let rest' := rest.dropWhile notDash
      mkConstField bit run :: scanConstsF fuel rest' (bit - run.length)

/-- The constant-field part of `computeFields`, applied to a successfully
parsed match pattern `m` (the loop starts at `bit = match.length - 1`). -/
def computeConstFields (m : List Char) : List Field :=
  scanConstsF m.length m (Int.ofNat m.length - 1)

/-- The loop body of the variable-field part of `computeFields`: parse the
spec's location; `continue` (no field) if no segments result, otherwise
push one field with `from = Math.max(...froms)`, `to = Math.min(...tos)`,
and `width` the `reduce`-sum of the individual segment widths
(`Math.max`/`Math.min` over the non-empty list are modelled as folds from
the first element). -/
def varFieldOf (v : VarSpec) : Option Field :=
  match parseLocationSegments v.location with
  | [] => none
  | s :: ss =>
    some { label := v.name
         , hi := (ss.map (fun t => t.hi)).foldl max s.hi
         , lo := (ss.map (fun t => t.lo)).foldl min s.lo
         , width := (s :: ss).foldl (fun sum t => sum + (t.hi - t.lo + 1)) 0
         , kind := "var"
         , segments := some (s :: ss) }

/-- The variable-field part of `computeFields`: one pushed field per spec
that yields at least one segment. -/
def computeVarFields (vs : List VarSpec) : List Field :=
  vs.filterMap varFieldOf

/-- The comparator `b.from - a.from` used to sort the combined field list:
descending by `from`, ties left in original order (stable sort). -/
def fieldHiGE (a b : Field) : Prop := b.hi ≤ a.hi

instance : DecidableRel fieldHiGE := fun a b => by
  unfold fieldHiGE; infer_instance

instance : IsTotal Field fieldHiGE := by
  constructor; intro a b; unfold fieldHiGE; omega

instance : IsTrans Field fieldHiGE := by
  constructor; intro a b c; unfold fieldHiGE; omega

/-- JS stable `.sort((a, b) => b.from - a.from)` on fields. -/
def sortFields (l : List Field) : List Field :=
  List.insertionSort fieldHiGE l

/-- `computeFields` on an already variant-selected encoding record:
variable fields are pushed first, then the constant runs of the match
pattern (`enc.match || ""` feeds `parseMatchBits`), and the combined list
is sorted descending by `from`. -/
def computeFields (enc : Encoding) : List Field :=
  let constFields :=
    match parseMatchBits (enc.matchStr.getD "") with
    | none => []
    | some m => computeConstFields m
  sortFields (computeVarFields enc.vars ++ constFields)

/-! ## FormatClassifier (`detectEncodingType`) -/

/-- `Object.fromEntries` followed by property lookup: for duplicate names
the last entry wins; a missing name is `undefined` (`none`).  The entries
are the `(v.name, String(v.location))` pairs. -/
def lookupLast (vs : List (String × String)) (n : String) : Option String :=
  vs.foldl (fun acc p => if p.1 = n then some p.2 else acc) none

/-- The helper `eq(name, hi, lo)`: the stored location string equals
`hi + "-" + lo` (JS number-to-string concatenation). -/
def eqLoc (vs : List (String × String)) (n : String) (hi lo : Nat) : Bool :=
  lookupLast vs n == some (toString hi ++ "-" ++ toString lo)

/-- The `I` predicate: `xd`@11-7, `xs1`@19-15, `imm` exactly `"31-20"`. -/
def predI (vs : List (String × String)) : Bool :=
  eqLoc vs "xd" 11 7 && eqLoc vs "xs1" 19 15 && (lookupLast vs "imm" == some "31-20")

/-- The `R` predicate: `xd`@11-7, `xs1`@19-15, `xs2`@24-20. -/
def predR (vs : List (String × String)) : Bool :=
  eqLoc vs "xd" 11 7 && eqLoc vs "xs1" 19 15 && eqLoc vs "xs2" 24 20

/-- The `S` predicate: `xs2`@24-20, `xs1`@19-15, `imm`@11-7. -/
def predS (vs : List (String × String)) : Bool :=
  eqLoc vs "xs2" 24 20 && eqLoc vs "xs1" 19 15 && eqLoc vs "imm" 11 7

/-- The `U` predicate: `imm` exactly `"31-12"`, `xd`@11-7. -/
def predU (vs : List (String × String)) : Bool :=
  (lookupLast vs "imm" == some "31-12") && eqLoc vs "xd" 11 7

/-- The `J` predicate: `imm`@31-12, `xs1`@19-15. -/
def predJ (vs : List (String × String)) : Bool :=
  eqLoc vs "imm" 31 12 && eqLoc vs "xs1" 19 15

/-- The `B` predicate: `xs2`@24-20, `xs1`@19-15, `imm`@11-7 — textually
identical to the `S` predicate in the source. -/
def predB (vs : List (String × String)) : Bool :=
  eqLoc vs "xs2" 24 20 && eqLoc vs "xs1" 19 15 && eqLoc vs "imm" 11 7

/-- `detectEncodingType` from `src/unnamed/part_000`: `undefined` when the
record has no variable array, otherwise the first matching tag in the
order I, R, S, U, J, B. -/
def detectEncodingType (vars? : Option (List (String × String))) : Option String :=
  match vars? with
  | none => none
  | some vs =>
    if predI vs then some "I"
    else if predR vs then some "R"
    else if predS vs then some "S"
    else if predU vs then some "U"
    else if predJ vs then some "J"
    else if predB vs then some "B"
    else none

/-! ## BitfieldLayoutBuilder (`standardizeBitfieldFields`) -/

/-- Step 1 of `standardizeBitfieldFields`: expand every field into one
entry per segment (fields without a non-empty `segments` array count as a
single segment `{from, to}`), recomputing `width = from - to + 1` and
skipping non-positive widths.  The source's label ternary evaluates to
`field.label` in both branches. -/
def expandFields (fields : List Field) : List LayoutSeg :=
  fields.flatMap fun field =>
    let segs :=
      match field.segments with
      | some (s :: ss) => s :: ss
      | _ => [⟨field.hi, field.lo⟩]
    segs.filterMap fun seg =>
      let w := seg.hi - seg.lo + 1
      if w ≤ 0 then none
      else some ⟨field.label, seg.hi, seg.lo, w, field.kind⟩

/-- The comparator `b.from - a.from` on layout entries. -/
def hiGE (a b : LayoutSeg) : Prop := b.hi ≤ a.hi

instance : DecidableRel hiGE := fun a b => by
  unfold hiGE; infer_instance

instance : IsTotal LayoutSeg hiGE := by
  constructor; intro a b; unfold hiGE; omega

instance : IsTrans LayoutSeg hiGE := by
  constructor; intro a b c; unfold hiGE; omega

/-- JS stable `.sort((a, b) => b.from - a.from)` on layout entries. -/
def sortLayout (l : List LayoutSeg) : List LayoutSeg :=
  List.insertionSort hiGE l

/-- Step 2 of `standardizeBitfieldFields`: walk the sorted entries with a
cursor `nextBit`; when the cursor is strictly above the next entry insert
a gap `{from: nextBit, to: seg.from + 1, width: nextBit - seg.from}`, then
emit the entry and move the cursor to `seg.to - 1`; a final gap down to
bit 0 is appended when the cursor is still `≥ 0`. -/
def fillLoop (nextBit : Int) : List LayoutSeg → List LayoutSeg
  | [] =>
    if 0 ≤ nextBit then [⟨"", nextBit, 0, nextBit + 1, "gap"⟩] else []
  | seg :: rest =>
    if seg.hi < nextBit then
      ⟨"", nextBit, seg.hi + 1, nextBit - seg.hi, "gap"⟩ ::
        seg :: fillLoop (seg.lo - 1) rest
    else
      seg :: fillLoop (seg.lo - 1) rest

/-- `standardizeBitfieldFields` from `src/unnamed/part_000`: expand, sort
descending by `from`, fill gaps, and (defensively) re-sort. -/
def standardizeBitfieldFields (fields : List Field) (totalBits : Int) : List LayoutSeg :=
  let expanded := sortLayout (expandFields fields)
  sortLayout (fillLoop (totalBits - 1) expanded)

/-! ## Derived opcode/funct3/funct7 slices (`loadInstructions`) -/

/-- The `sliceBits(hi, lo)` closure of `loadInstructions`:
`m.slice(31 - hi, 32 - lo).join("")` on the parsed match array (for the
in-range arguments actually used, JS `slice` is drop-then-take). -/
def sliceBits (m : List Char) (hi lo : Nat) : List Char :=
  (m.drop (31 - hi)).take (32 - lo - (31 - hi))

/-- The regex `^[01]{7}$` applied to a slice. -/
def isBin7 (cs : List Char) : Bool :=
  cs.length == 7 && cs.all (fun c => c = '0' || c = '1')

/-- The derived `opcode` string: `sliceBits(6, 0)`. -/
def deriveOpcode (m : List Char) : List Char := sliceBits m 6 0

/-- The derived `funct3` string: `sliceBits(14, 12)`. -/
def deriveFunct3 (m : List Char) : List Char := sliceBits m 14 12

/-- The derived `funct7`: `sliceBits(31, 25)` when it passes `^[01]{7}$`,
otherwise `undefined`. -/
def deriveFunct7 (m : List Char) : Option (List Char) :=
  let f7 := sliceBits m 31 25
  if isBin7 f7 then some f7 else none

/-! ## Helper lemmas -/

/-- Every successfully parsed piece is normalized: the low endpoint is the
`min` and the high endpoint the `max`, so `lo ≤ hi`. -/
theorem parsePiece_lo_le_hi {part : List Char} {s : BitSeg}
    (h : parsePiece part = some s) : s.lo ≤ s.hi := by
  unfold parsePiece at h
  dsimp only at h
  split at h
  · exact absurd h (by simp)
  · split at h
    · exact absurd h (by simp)
    · injection h with h'
      subst h'
      exact min_le_max

/-- The piece pipeline of `segmentsOfParts` fused into a single
`filterMap`. -/
theorem pipeline_eq_filterMap (ps : List (List Char)) :
    ((ps.map trimChars).filter (fun p => !p.isEmpty)).filterMap parsePiece
      = ps.filterMap
          (fun p => if (trimChars p).isEmpty then none else parsePiece (trimChars p)) := by
  induction ps with
  | nil => rfl
  | cons p ps ih =>
    by_cases h : trimChars p = []
    · simp [List.filter_cons, List.filterMap_cons, h, ih]
    · have h2 : (trimChars p).isEmpty = false := by
        simpa [List.isEmpty_iff] using h
      cases hp : parsePiece (trimChars p) <;>
        simp [List.filter_cons, List.filterMap_cons, h, h2, hp, ih]

/-- Entries on which `g` fails contribute nothing to a `filterMap`. -/
theorem filterMap_filter_isSome {α β : Type} (g : α → Option β) (ps : List α) :
    ps.filterMap g = (ps.filter (fun p => (g p).isSome)).filterMap g := by
  induction ps with
  | nil => rfl
  | cons p ps ih =>
    cases h : g p <;> simp [List.filter_cons, List.filterMap_cons, h, ← ih]

/-! ## Claim theorems: the two leaf parsers -/

/-- C6: `parseMatchBits` returns the string exploded into one character
per position, preserving order, exactly when the length is 16 or 32, and
`null` for every other length — including the empty string and a
33-character string. -/
theorem parseMatchBits_length_contract :
    (∀ s : String, parseMatchBits s =
        if s.length = 16 ∨ s.length = 32 then some s.data else none)
    ∧ parseMatchBits "" = none
    ∧ parseMatchBits "0000000-----------000-----0110011" = none
    ∧ parseMatchBits "0000000----------000-----0110011" =
        some "0000000----------000-----0110011".data := by
  refine ⟨?_, by decide, by decide, by decide⟩
  intro s
  by_cases he : s = ""
  · subst he; decide
  · by_cases h16 : s.length = 16
    · simp [parseMatchBits, he, h16]
    · by_cases h32 : s.length = 32 <;> simp [parseMatchBits, he, h16, h32]

/-- C4: `parseLocationSegments` returns only normalized ranges
(`lo ≤ hi`, endpoints reordered as max/min), sorted descending by `hi`
with ties broken by descending `lo`; in particular `"31-25|11-7"` parses
to the ranges `{31,25}` and `{11,7}` of widths 7 and 5, and `"25-31"`
(endpoints in the other order) parses to `{31,25}`. -/
theorem parseLocationSegments_normalized_sorted :
    (∀ loc : Option String,
        List.Sorted segLE (parseLocationSegments loc)
        ∧ ∀ s ∈ parseLocationSegments loc, s.lo ≤ s.hi)
    ∧ parseLocationSegments (some "31-25|11-7") = [⟨31, 25⟩, ⟨11, 7⟩]
    ∧ ((parseLocationSegments (some "31-25|11-7")).map fun s => s.hi - s.lo + 1) = [7, 5]
    ∧ parseLocationSegments (some "25-31") = [⟨31, 25⟩] := by
  refine ⟨?_, by decide, by decide, by decide⟩
  intro loc
  match loc with
  | none => exact ⟨List.sorted_nil, by simp [parseLocationSegments]⟩
  | some str =>
    constructor
    · exact List.sorted_insertionSort segLE _
    · intro s hs
      have hs' : s ∈ ((((splitOnChar '|' str.data).map trimChars).filter
          (fun p => !p.isEmpty)).filterMap parsePiece) := by
        simpa [parseLocationSegments, segmentsOfParts, sortSegs] using hs
      obtain ⟨part, -, hp⟩ := List.mem_filterMap.mp hs'
      exact parsePiece_lo_le_hi hp

/-- C4 witness: the theorem applied to the concrete expression
`"31-25|11-7"` and its first returned range. -/
theorem parseLocationSegments_normalized_sorted_witness :
    (⟨(31 : Int), (25 : Int)⟩ : BitSeg) ∈ parseLocationSegments (some "31-25|11-7")
    ∧ (25 : Int) ≤ 31 :=
  ⟨by decide,
   (parseLocationSegments_normalized_sorted.1 (some "31-25|11-7")).2
     ⟨31, 25⟩ (by decide)⟩

/-- C5: a piece that fails to parse is silently dropped while the valid
pieces are still returned (filtering the unparsable pieces away first
changes nothing), and an absent or entirely empty location expression
yields the empty sequence; the functions are total, so no error is ever
raised. -/
theorem parseLocationSegments_lenient :
    (∀ parts : List (List Char),
        segmentsOfParts parts
          = segmentsOfParts (parts.filter fun p =>
              !(trimChars p).isEmpty && (parsePiece (trimChars p)).isSome))
    ∧ parseLocationSegments none = []
    ∧ parseLocationSegments (some "") = []
    ∧ parseLocationSegments (some "31-25|junk|11-7") = [⟨31, 25⟩, ⟨11, 7⟩] := by
  refine ⟨?_, rfl, by decide, by decide⟩
  intro ps
  unfold segmentsOfParts
  congr 1
  rw [pipeline_eq_filterMap, pipeline_eq_filterMap]
  rw [filterMap_filter_isSome
    (fun p => if (trimChars p).isEmpty then none else parsePiece (trimChars p)) ps]
  congr 1
  apply List.filter_congr
  intro p _
  by_cases h : (trimChars p).isEmpty <;> simp [h]

/-! ## Claim theorems: FormatClassifier -/

/-- C3 counterexample: the claim "for every input on which the B predicate
holds the function returns S" is false — on these variables the B
predicate holds, but the earlier R predicate also matches, so the
function returns `R`, not `S`. -/
theorem detectEncodingType_bpred_but_r :
    predB [("xd", "11-7"), ("xs1", "19-15"), ("xs2", "24-20"), ("imm", "11-7")] = true
    ∧ detectEncodingType
        (some [("xd", "11-7"), ("xs1", "19-15"), ("xs2", "24-20"), ("imm", "11-7")])
        = some "R" :=
  ⟨by decide, by decide⟩

/-- C3 (amended): `detectEncodingType` returns the first matching tag in
the order I, R, S, U, J, B; the S and B predicates are identical, so the
tag `B` is never returned, and on every input where the B predicate holds
and neither the I nor the R predicate matches, the function returns `S`. -/
theorem detectEncodingType_no_b :
    (∀ vars? : Option (List (String × String)), detectEncodingType vars? ≠ some "B")
    ∧ (∀ vs : List (String × String), predS vs = predB vs)
    ∧ (∀ vs : List (String × String),
        predB vs = true → predI vs = false → predR vs = false →
          detectEncodingType (some vs) = some "S") := by
  have hSB : ∀ vs, predS vs = predB vs := fun _ => rfl
  refine ⟨?_, hSB, ?_⟩
  · intro vars?
    match vars? with
    | none => simp [detectEncodingType]
    | some vs =>
      unfold detectEncodingType
      dsimp only
      split_ifs with h1 h2 h3 h4 h5 h6 <;> simp_all [hSB vs]
  · intro vs hB hI hR
    have hS : predS vs = true := (hSB vs).trans hB
    simp [detectEncodingType, hI, hR, hS]

/-- C3 witness: an S-shaped variable list on which the B predicate holds
and neither I nor R matches; the classifier returns `S`. -/
theorem detectEncodingType_no_b_witness :
    predB [("xs2", "24-20"), ("xs1", "19-15"), ("imm", "11-7")] = true
    ∧ predI [("xs2", "24-20"), ("xs1", "19-15"), ("imm", "11-7")] = false
    ∧ predR [("xs2", "24-20"), ("xs1", "19-15"), ("imm", "11-7")] = false
    ∧ detectEncodingType (some [("xs2", "24-20"), ("xs1", "19-15"), ("imm", "11-7")])
        = some "S" :=
  ⟨by decide, by decide, by decide,
   detectEncodingType_no_b.2.2 _ (by decide) (by decide) (by decide)⟩

/-! ## Claim theorems: derived opcode/funct3/funct7 slices -/

/-- The claim-side description of "re-slicing the pattern at a span"
(C9): the characters at bit positions `hi, hi-1, ..., lo`, where bit `b`
of a pattern of length `n` is stored at index `n - 1 - b`. -/
def specBits (m : List Char) (hi lo : Nat) : List Char :=
  (List.range (hi + 1 - lo)).map fun k => m.getD (m.length - 1 - (hi - k)) '?'

/-- A drop-then-take slice enumerated position by position. -/
theorem drop_take_eq_map_range {α : Type} (d : α) (l : List α) (a n : Nat)
    (h : a + n ≤ l.length) :
    (l.drop a).take n = (List.range n).map fun k => l.getD (a + k) d := by
  apply List.ext_getElem?
  intro i
  by_cases hi : i < n
  · rw [List.getElem?_take_of_lt hi, List.getElem?_drop, List.getElem?_map,
      List.getElem?_range hi]
    have hil : a + i < l.length := by omega
    simp [List.getElem?_eq_getElem hil]
  · rw [List.getElem?_take_eq_none (by omega), List.getElem?_map,
      List.getElem?_eq_none (by simpa using Nat.le_of_not_lt hi)]
    rfl

/-- On a 32-character pattern, the JS `m.slice(31 - hi, 32 - lo)` is
exactly the spec's bit-position slice of the span `[hi, lo]`. -/
theorem sliceBits_eq_specBits (m : List Char) (h32 : m.length = 32)
    {hi lo : Nat} (hhi : hi ≤ 31) (hlo : lo ≤ hi) :
    sliceBits m hi lo = specBits m hi lo := by
  unfold sliceBits specBits
  have hn : 32 - lo - (31 - hi) = hi + 1 - lo := by omega
  rw [hn, drop_take_eq_map_range '?' m (31 - hi) (hi + 1 - lo) (by omega)]
  apply List.map_congr_left
  intro k hk
  have hk' : k < hi + 1 - lo := List.mem_range.mp hk
  congr 1
  omega

/-- C9: on a parsed 32-bit match pattern the derived `opcode` and `funct3`
are the re-slices of the pattern at spans `[6,0]` and `[14,12]`, and
`funct7` is the re-slice at `[31,25]` guarded by the all-`0`/`1`
validation: it is reported as absent whenever the slice still contains a
don't-care symbol. -/
theorem derive_slices_spec (m : List Char) (h32 : m.length = 32) :
    deriveOpcode m = specBits m 6 0
    ∧ deriveFunct3 m = specBits m 14 12
    ∧ deriveFunct7 m
        = (if (specBits m 31 25).all (fun c => c = '0' || c = '1')
           then some (specBits m 31 25) else none)
    ∧ ('-' ∈ specBits m 31 25 → deriveFunct7 m = none) := by
  have hop : deriveOpcode m = specBits m 6 0 :=
    sliceBits_eq_specBits m h32 (by omega) (by omega)
  have hf3 : deriveFunct3 m = specBits m 14 12 :=
    sliceBits_eq_specBits m h32 (by omega) (by omega)
  have hf7s : sliceBits m 31 25 = specBits m 31 25 :=
    sliceBits_eq_specBits m h32 (by omega) (by omega)
  have hlen : (specBits m 31 25).length = 7 := by
    simp [specBits]
  have hf7 : deriveFunct7 m
      = (if (specBits m 31 25).all (fun c => c = '0' || c = '1')
         then some (specBits m 31 25) else none) := by
    unfold deriveFunct7 isBin7
    rw [hf7s]
    dsimp only
    rw [hlen]
    simp
  refine ⟨hop, hf3, hf7, ?_⟩
  intro hdash
  rw [hf7]
  have : ¬(specBits m 31 25).all (fun c => c = '0' || c = '1') = true := by
    intro hall
    have := (List.all_eq_true.mp hall) '-' hdash
    simp at this
  simp [this]

/-- C9 witness: on a concrete 32-bit pattern whose funct7 slice contains a
don't-care symbol, the theorem yields `funct7 = undefined`. -/
theorem derive_slices_spec_witness :
    deriveFunct7 "000000-----------000-----0110011".data = none :=
  (derive_slices_spec "000000-----------000-----0110011".data (by decide)).2.2.2
    (by decide)

/-! ## Claim theorems: FieldResolver variable fields -/

/-- The claim-side description of a resolved variable field (C8): overall
`hi` is the maximum `hi` over the parsed ranges, `lo` the minimum `lo`,
`width` the sum of the individual range widths (not `hi - lo + 1`), and
the field carries all the parsed segments. -/
def specVarField (v : VarSpec) : Field :=
  let segs := parseLocationSegments v.location
  { label := v.name
  , hi := ((segs.map fun s => s.hi).max?).getD 0
  , lo := ((segs.map fun s => s.lo).min?).getD 0
  , width := (segs.map fun s => s.hi - s.lo + 1).sum
  , kind := "var"
  , segments := some segs }

/-- Folding `+ f t` over a list is adding the sum of the mapped list. -/
theorem foldl_add_map {β : Type} (f : β → Int) (l : List β) (init : Int) :
    l.foldl (fun a t => a + f t) init = init + (l.map f).sum := by
  induction l generalizing init with
  | nil => simp
  | cons t ts ih => simp [ih, add_assoc]

/-- C8: a variable spec whose location parses to zero ranges produces no
field at all, and every other spec produces exactly one Variable field
whose `hi`/`lo`/`width` are the max/min/width-sum over its parsed ranges
and which carries all the segments; concretely, a two-segment immediate
`"31-25|11-7"` yields one field of width 12 (7 + 5, not 31 - 7 + 1). -/
theorem computeVarFields_spec :
    (∀ vs : List VarSpec,
        computeVarFields vs
          = (vs.filter fun v => !(parseLocationSegments v.location).isEmpty).map specVarField)
    ∧ computeVarFields [⟨"imm", some "31-25|11-7"⟩]
        = [⟨"imm", 31, 7, 12, "var", some [⟨31, 25⟩, ⟨11, 7⟩]⟩]
    ∧ computeVarFields [⟨"imm", some "junk"⟩] = [] := by
  refine ⟨?_, by decide, by decide⟩
  intro vs
  induction vs with
  | nil => rfl
  | cons v vs ih =>
    unfold computeVarFields at ih ⊢
    rw [List.filterMap_cons, List.filter_cons]
    cases hseg : parseLocationSegments v.location with
    | nil =>
      have h1 : varFieldOf v = none := by unfold varFieldOf; rw [hseg]
      rw [h1]
      simpa using ih
    | cons s ss =>
      have h1 : varFieldOf v = some (specVarField v) := by
        unfold varFieldOf specVarField
        rw [hseg]
        dsimp only
        have hw : (s :: ss).foldl (fun sum t => sum + (t.hi - t.lo + 1)) 0
            = ((s :: ss).map fun t => t.hi - t.lo + 1).sum := by
          rw [foldl_add_map]; omega
        simp [List.max?, List.min?, hw]
      rw [h1]
      simpa using ih

/-! ## Claim theorems: BitfieldLayoutBuilder -/

/-- Two layout entries occupy non-overlapping bit ranges. -/
def SegDisjoint (a b : LayoutSeg) : Prop := b.hi < a.lo ∨ a.hi < b.lo

instance : DecidableRel SegDisjoint := fun a b => by
  unfold SegDisjoint; infer_instance

theorem segDisjoint_symm : ∀ {a b : LayoutSeg}, SegDisjoint a b → SegDisjoint b a := by
  intro a b h; unfold SegDisjoint at h ⊢; omega

/-- The claim-side partition property (C1): read top-down, the first
entry's `hi` is `c`, each entry is a well-formed range inside `[0, c]`,
each entry's `lo` is exactly one above the next entry's `hi`, and the last
entry's `lo` is 0 (so the ranges tile `[0, c]` exactly, sorted descending). -/
def tilesDown : Int → List LayoutSeg → Bool
  | c, [] => c == -1
  | c, s :: rest =>
    s.hi == c && decide (s.lo ≤ s.hi) && decide (0 ≤ s.lo) && tilesDown (s.lo - 1) rest

/-- Precondition for the gap-filling walk: every entry is a well-formed
in-bounds range, entries are descending, and consecutive entries do not
overlap (each entry fits below the previous entry's `lo`). -/
def Covers : Int → List LayoutSeg → Prop
  | _, [] => True
  | c, s :: rest => s.lo ≤ s.hi ∧ 0 ≤ s.lo ∧ s.hi ≤ c ∧ Covers (s.lo - 1) rest

/-- Unfolding of the tiling predicate at a cons cell. -/
theorem tilesDown_cons_iff {c : Int} {s : LayoutSeg} {rest : List LayoutSeg} :
    tilesDown c (s :: rest) = true ↔
      (s.hi = c ∧ s.lo ≤ s.hi ∧ 0 ≤ s.lo ∧ tilesDown (s.lo - 1) rest = true) := by
  simp [tilesDown, and_assoc]

/-- Unfolding of the tiling predicate at the empty list. -/
theorem tilesDown_nil_iff {c : Int} : tilesDown c [] = true ↔ c = -1 := by
  simp [tilesDown]

/-- Every expanded entry records its own span width, which is positive. -/
theorem expandFields_width {fields : List Field} {e : LayoutSeg}
    (he : e ∈ expandFields fields) :
    e.width = e.hi - e.lo + 1 ∧ 0 < e.width := by
  unfold expandFields at he
  obtain ⟨f, -, he⟩ := List.mem_flatMap.mp he
  obtain ⟨seg, -, he⟩ := List.mem_filterMap.mp he
  dsimp only at he
  split at he
  · exact absurd he (by simp)
  · rename_i hw
    injection he with he'
    subst he'
    refine ⟨rfl, ?_⟩
    show 0 < seg.hi - seg.lo + 1
    omega

/-- A sorted, pairwise-disjoint, in-bounds entry list satisfies the
gap-filling precondition. -/
theorem covers_of_sorted_disjoint :
    ∀ {l : List LayoutSeg} {c : Int}, List.Sorted hiGE l → l.Pairwise SegDisjoint →
      (∀ s ∈ l, s.lo ≤ s.hi ∧ 0 ≤ s.lo ∧ s.hi ≤ c) → Covers c l := by
  intro l
  induction l with
  | nil => intro c _ _ _; trivial
  | cons s rest ih =>
    intro c hsort hdisj hb
    have hs := hb s (List.mem_cons_self s rest)
    refine ⟨hs.1, hs.2.1, hs.2.2, ?_⟩
    apply ih hsort.of_cons (List.Pairwise.sublist (List.sublist_cons_self s rest) hdisj)
    intro t ht
    have htb := hb t (List.mem_cons_of_mem s ht)
    have hrel : hiGE s t := List.rel_of_sorted_cons hsort t ht
    have hd : SegDisjoint s t := (List.pairwise_cons.mp hdisj).1 t ht
    unfold hiGE at hrel
    unfold SegDisjoint at hd
    refine ⟨htb.1, htb.2.1, ?_⟩
    omega

/-- Gap filling turns a covering entry list into an exact tiling of
`[0, c]`. -/
theorem tilesDown_fillLoop :
    ∀ (l : List LayoutSeg) (c : Int), Covers c l → -1 ≤ c →
      tilesDown c (fillLoop c l) = true := by
  intro l
  induction l with
  | nil =>
    intro c _ hc
    unfold fillLoop
    by_cases h : (0 : Int) ≤ c
    · rw [if_pos h, tilesDown_cons_iff]
      dsimp only
      refine ⟨rfl, by omega, by omega, ?_⟩
      rw [tilesDown_nil_iff]
      omega
    · rw [if_neg h, tilesDown_nil_iff]
      omega
  | cons s rest ih =>
    intro c hcov hc
    obtain ⟨h1, h2, h3, hcov'⟩ := hcov
    have hrec : tilesDown (s.lo - 1) (fillLoop (s.lo - 1) rest) = true :=
      ih (s.lo - 1) hcov' (by omega)
    unfold fillLoop
    by_cases hlt : s.hi < c
    · rw [if_pos hlt, tilesDown_cons_iff]
      refine ⟨rfl, by dsimp only; omega, by dsimp only; omega, ?_⟩
      rw [tilesDown_cons_iff]
      refine ⟨by dsimp only; omega, h1, h2, ?_⟩
      exact hrec
    · rw [if_neg hlt, tilesDown_cons_iff]
      exact ⟨by omega, h1, h2, hrec⟩

/-- Everything inside an exact tiling of `[0, c]` is a well-formed range
bounded by `c`. -/
theorem tilesDown_bounds :
    ∀ {l : List LayoutSeg} {c : Int}, tilesDown c l = true →
      ∀ s ∈ l, s.lo ≤ s.hi ∧ 0 ≤ s.lo ∧ s.hi ≤ c := by
  intro l
  induction l with
  | nil => intro c _ s hs; cases hs
  | cons s rest ih =>
    intro c h t ht
    rw [tilesDown_cons_iff] at h
    obtain ⟨hhi, hle, hlo, hrest⟩ := h
    rcases List.mem_cons.mp ht with rfl | ht
    · omega
    · have := ih hrest t ht
      omega

/-- An exact tiling is sorted descending by `hi`. -/
theorem tilesDown_sorted :
    ∀ {l : List LayoutSeg} {c : Int}, tilesDown c l = true →
      List.Sorted hiGE l := by
  intro l
  induction l with
  | nil => intro c _; exact List.sorted_nil
  | cons s rest ih =>
    intro c h
    rw [tilesDown_cons_iff] at h
    obtain ⟨hhi, hle, hlo, hrest⟩ := h
    rw [List.sorted_cons]
    refine ⟨?_, ih hrest⟩
    intro t ht
    have := tilesDown_bounds hrest t ht
    unfold hiGE
    omega

/-- An exact tiling is pairwise non-overlapping. -/
theorem tilesDown_pairwise :
    ∀ {l : List LayoutSeg} {c : Int}, tilesDown c l = true →
      l.Pairwise SegDisjoint := by
  intro l
  induction l with
  | nil => intro c _; exact List.Pairwise.nil
  | cons s rest ih =>
    intro c h
    rw [tilesDown_cons_iff] at h
    obtain ⟨hhi, hle, hlo, hrest⟩ := h
    refine List.pairwise_cons.mpr ⟨?_, ih hrest⟩
    intro t ht
    have := tilesDown_bounds hrest t ht
    unfold SegDisjoint
    omega

/-- Summing the spans of an exact tiling of `[0, c]` gives `c + 1`. -/
theorem tilesDown_sum :
    ∀ {l : List LayoutSeg} {c : Int}, tilesDown c l = true →
      (∀ s ∈ l, s.width = s.hi - s.lo + 1) →
      ((l.map fun s => s.width).sum) = c + 1 := by
  intro l
  induction l with
  | nil =>
    intro c h _
    rw [tilesDown_nil_iff] at h
    simp [h]
  | cons s rest ih =>
    intro c h hw
    rw [tilesDown_cons_iff] at h
    obtain ⟨hhi, hle, hlo, hrest⟩ := h
    have hs := hw s (List.mem_cons_self s rest)
    have := ih hrest fun t ht => hw t (List.mem_cons_of_mem s ht)
    simp only [List.map_cons, List.sum_cons, this]
    omega

/-- Gap filling preserves "width equals span": inserted gaps record their
own span as width. -/
theorem fillLoop_width :
    ∀ (l : List LayoutSeg) (c : Int), (∀ s ∈ l, s.width = s.hi - s.lo + 1) →
      ∀ t ∈ fillLoop c l, t.width = t.hi - t.lo + 1 := by
  intro l
  induction l with
  | nil =>
    intro c _ t ht
    unfold fillLoop at ht
    by_cases h : (0 : Int) ≤ c
    · rw [if_pos h] at ht
      rcases List.mem_singleton.mp ht with rfl
      simp
    · rw [if_neg h] at ht
      cases ht
  | cons s rest ih =>
    intro c hw t ht
    have hws := hw s (List.mem_cons_self s rest)
    have hwrest : ∀ u ∈ rest, u.width = u.hi - u.lo + 1 :=
      fun u hu => hw u (List.mem_cons_of_mem s hu)
    unfold fillLoop at ht
    by_cases hlt : s.hi < c
    · rw [if_pos hlt] at ht
      rcases List.mem_cons.mp ht with rfl | ht'
      · simp; omega
      · rcases List.mem_cons.mp ht' with rfl | ht''
        · exact hws
        · exact ih (s.lo - 1) hwrest t ht''
    · rw [if_neg hlt] at ht
      rcases List.mem_cons.mp ht with rfl | ht'
      · exact hws
      · exact ih (s.lo - 1) hwrest t ht'

/-- Gap filling never emits an entry of non-positive width: the inserted
gaps are strictly positive by the `nextBit > seg.from` guard (a would-be
negative-width insertion is skipped), and input entries keep their
width. -/
theorem fillLoop_pos :
    ∀ (l : List LayoutSeg) (c : Int), (∀ s ∈ l, 0 < s.width) →
      ∀ t ∈ fillLoop c l, 0 < t.width := by
  intro l
  induction l with
  | nil =>
    intro c _ t ht
    unfold fillLoop at ht
    by_cases h : (0 : Int) ≤ c
    · rw [if_pos h] at ht
      rcases List.mem_singleton.mp ht with rfl
      simp
      omega
    · rw [if_neg h] at ht
      cases ht
  | cons s rest ih =>
    intro c hp t ht
    have hps := hp s (List.mem_cons_self s rest)
    have hprest : ∀ u ∈ rest, 0 < u.width :=
      fun u hu => hp u (List.mem_cons_of_mem s hu)
    unfold fillLoop at ht
    by_cases hlt : s.hi < c
    · rw [if_pos hlt] at ht
      rcases List.mem_cons.mp ht with rfl | ht'
      · simp; omega
      · rcases List.mem_cons.mp ht' with rfl | ht''
        · exact hps
        · exact ih (s.lo - 1) hprest t ht''
    · rw [if_neg hlt] at ht
      rcases List.mem_cons.mp ht with rfl | ht'
      · exact hps
      · exact ih (s.lo - 1) hprest t ht'

/-- Shared core fact: under the amended hypotheses (expanded segments
pairwise non-overlapping and inside `[0, W-1]`), the defensive final sort
is the identity and the gap-filled list exactly tiles `[0, W-1]`. -/
theorem standardize_core (fields : List Field) (W : Int)
    (hW : W = 16 ∨ W = 32)
    (hdisj : (expandFields fields).Pairwise SegDisjoint)
    (hbound : ∀ s ∈ expandFields fields, 0 ≤ s.lo ∧ s.hi ≤ W - 1) :
    standardizeBitfieldFields fields W
      = fillLoop (W - 1) (sortLayout (expandFields fields))
    ∧ tilesDown (W - 1) (fillLoop (W - 1) (sortLayout (expandFields fields))) = true := by
  have hperm : List.Perm (sortLayout (expandFields fields)) (expandFields fields) :=
    List.perm_insertionSort hiGE (expandFields fields)
  have hsorted : List.Sorted hiGE (sortLayout (expandFields fields)) :=
    List.sorted_insertionSort hiGE (expandFields fields)
  have hdisj' : (sortLayout (expandFields fields)).Pairwise SegDisjoint :=
    (hperm.pairwise_iff segDisjoint_symm).mpr hdisj
  have hbounds' : ∀ s ∈ sortLayout (expandFields fields),
      s.lo ≤ s.hi ∧ 0 ≤ s.lo ∧ s.hi ≤ W - 1 := by
    intro s hs
    have hs' : s ∈ expandFields fields := hperm.mem_iff.mp hs
    have h1 := expandFields_width hs'
    have h2 := hbound s hs'
    exact ⟨by omega, h2.1, h2.2⟩
  have hcov : Covers (W - 1) (sortLayout (expandFields fields)) :=
    covers_of_sorted_disjoint hsorted hdisj' hbounds'
  have htile : tilesDown (W - 1)
      (fillLoop (W - 1) (sortLayout (expandFields fields))) = true :=
    tilesDown_fillLoop _ (W - 1) hcov (by omega)
  refine ⟨?_, htile⟩
  have hsorted2 := tilesDown_sorted htile
  unfold standardizeBitfieldFields
  exact List.Sorted.insertionSort_eq hsorted2

/-- C1 counterexample: the claim as stated is false — this input's
expanded segments are pairwise non-overlapping (there is only one), but
the segment lies outside `[0, 31]`, so the returned list does not
partition `[0, 31]` (its first entry's high is 40, not 31). -/
theorem standardize_partition_cex :
    (expandFields [⟨"x", 40, 35, 6, "var", none⟩]).Pairwise SegDisjoint
    ∧ tilesDown 31
        (standardizeBitfieldFields [⟨"x", 40, 35, 6, "var", none⟩] 32) = false :=
  ⟨by decide, by decide⟩

/-- C1 (amended): if additionally every expanded segment lies within
`[0, W-1]`, the returned list's ranges exactly partition `[0, W-1]` —
sorted descending, first high `W-1`, each entry's low one above the next
entry's high, last low 0 — and are pairwise non-overlapping. -/
theorem standardize_partition (fields : List Field) (W : Int)
    (hW : W = 16 ∨ W = 32)
    (hdisj : (expandFields fields).Pairwise SegDisjoint)
    (hbound : ∀ s ∈ expandFields fields, 0 ≤ s.lo ∧ s.hi ≤ W - 1) :
    tilesDown (W - 1) (standardizeBitfieldFields fields W) = true
    ∧ (standardizeBitfieldFields fields W).Pairwise SegDisjoint := by
  obtain ⟨heq, htile⟩ := standardize_core fields W hW hdisj hbound
  rw [heq]
  exact ⟨htile, tilesDown_pairwise htile⟩

/-- C1 witness: the theorem applied to the resolved fields of a concrete
R-type instruction at width 32. -/
theorem standardize_partition_witness :
    ((32 : Int) = 16 ∨ (32 : Int) = 32)
    ∧ (expandFields
        [⟨"funct7=0000000", 31, 25, 7, "const", none⟩,
         ⟨"rs2", 24, 20, 5, "var", some [⟨24, 20⟩]⟩,
         ⟨"rs1", 19, 15, 5, "var", some [⟨19, 15⟩]⟩,
         ⟨"funct3=000", 14, 12, 3, "const", none⟩,
         ⟨"rd", 11, 7, 5, "var", some [⟨11, 7⟩]⟩,
         ⟨"opcode=0110011", 6, 0, 7, "const", none⟩]).Pairwise SegDisjoint
    ∧ (∀ s ∈ expandFields
        [⟨"funct7=0000000", 31, 25, 7, "const", none⟩,
         ⟨"rs2", 24, 20, 5, "var", some [⟨24, 20⟩]⟩,
         ⟨"rs1", 19, 15, 5, "var", some [⟨19, 15⟩]⟩,
         ⟨"funct3=000", 14, 12, 3, "const", none⟩,
         ⟨"rd", 11, 7, 5, "var", some [⟨11, 7⟩]⟩,
         ⟨"opcode=0110011", 6, 0, 7, "const", none⟩], 0 ≤ s.lo ∧ s.hi ≤ 32 - 1)
    ∧ tilesDown (32 - 1)
        (standardizeBitfieldFields
          [⟨"funct7=0000000", 31, 25, 7, "const", none⟩,
           ⟨"rs2", 24, 20, 5, "var", some [⟨24, 20⟩]⟩,
           ⟨"rs1", 19, 15, 5, "var", some [⟨19, 15⟩]⟩,
           ⟨"funct3=000", 14, 12, 3, "const", none⟩,
           ⟨"rd", 11, 7, 5, "var", some [⟨11, 7⟩]⟩,
           ⟨"opcode=0110011", 6, 0, 7, "const", none⟩] 32) = true :=
  ⟨by decide, by decide, by decide,
   (standardize_partition _ 32 (by decide) (by decide) (by decide)).1⟩

/-- C2 counterexample: the claim quantifies over every input field list,
but on this overlapping input (two copies of the full word) the widths sum
to 64, not 32. -/
theorem standardize_sum_width_cex :
    ((standardizeBitfieldFields
        [⟨"a", 31, 0, 32, "var", none⟩, ⟨"b", 31, 0, 32, "var", none⟩] 32).map
        fun s => s.width).sum ≠ 32 := by
  decide

/-- C2 (amended): if the expanded segments are pairwise non-overlapping
and lie within `[0, W-1]`, then summing the width of every returned entry
(constants, variables, and gaps together) equals `W`. -/
theorem standardize_sum_width (fields : List Field) (W : Int)
    (hW : W = 16 ∨ W = 32)
    (hdisj : (expandFields fields).Pairwise SegDisjoint)
    (hbound : ∀ s ∈ expandFields fields, 0 ≤ s.lo ∧ s.hi ≤ W - 1) :
    ((standardizeBitfieldFields fields W).map fun s => s.width).sum = W := by
  obtain ⟨heq, htile⟩ := standardize_core fields W hW hdisj hbound
  rw [heq]
  have hwidths : ∀ t ∈ fillLoop (W - 1) (sortLayout (expandFields fields)),
      t.width = t.hi - t.lo + 1 := by
    apply fillLoop_width
    intro s hs
    have hs' : s ∈ expandFields fields :=
      (List.perm_insertionSort hiGE (expandFields fields)).mem_iff.mp hs
    exact (expandFields_width hs').1
  have := tilesDown_sum htile hwidths
  omega

/-- C2 witness: the theorem applied to a concrete two-segment immediate
field ([31,25] and [11,7]) at width 32; the two segments plus the two
inserted gaps sum to 32. -/
theorem standardize_sum_width_witness :
    ((32 : Int) = 16 ∨ (32 : Int) = 32)
    ∧ (expandFields
        [⟨"imm", 31, 7, 12, "var", some [⟨31, 25⟩, ⟨11, 7⟩]⟩]).Pairwise SegDisjoint
    ∧ (∀ s ∈ expandFields [⟨"imm", 31, 7, 12, "var", some [⟨31, 25⟩, ⟨11, 7⟩]⟩],
        0 ≤ s.lo ∧ s.hi ≤ 32 - 1)
    ∧ ((standardizeBitfieldFields
        [⟨"imm", 31, 7, 12, "var", some [⟨31, 25⟩, ⟨11, 7⟩]⟩] 32).map
        fun s => s.width).sum = 32 :=
  ⟨by decide, by decide, by decide,
   standardize_sum_width _ 32 (by decide) (by decide) (by decide)⟩

/-- C10: for every input field list and width the function is total (the
Lean model returns a value for all inputs) and no returned gap entry has
zero or negative width: a would-be non-positive gap insertion is skipped
by the `nextBit > seg.from` guard. -/
theorem standardize_gap_width_pos (fields : List Field) (W : Int) (t : LayoutSeg)
    (ht : t ∈ standardizeBitfieldFields fields W) (hgap : t.kind = "gap") :
    0 < t.width := by
  simp only [standardizeBitfieldFields, sortLayout, List.mem_insertionSort] at ht
  apply fillLoop_pos _ (W - 1) ?_ t ht
  intro s hs
  have hs' : s ∈ expandFields fields := (List.mem_insertionSort hiGE).mp hs
  exact (expandFields_width hs').2

/-- C10 witness: an overlapping input (two copies of bits [31,25]); the
function still returns, the overlap produces no negative-width gap, and
the single emitted gap has width 25 > 0. -/
theorem standardize_gap_width_pos_witness :
    (⟨"", 24, 0, 25, "gap"⟩ : LayoutSeg) ∈
        standardizeBitfieldFields
          [⟨"f7a", 31, 25, 7, "var", none⟩, ⟨"f7b", 31, 25, 7, "var", none⟩] 32
    ∧ (0 : Int) < (⟨"", 24, 0, 25, "gap"⟩ : LayoutSeg).width :=
  ⟨by decide,
   standardize_gap_width_pos
     [⟨"f7a", 31, 25, 7, "var", none⟩, ⟨"f7b", 31, 25, 7, "var", none⟩] 32
     ⟨"", 24, 0, 25, "gap"⟩ (by decide) (by decide)⟩

/-! ## Claim theorems: FieldResolver constant runs -/

/-- The claim-side notion for C7: `run` is a maximal run of
non-don't-care symbols inside `cs` — it is non-empty, contains no `'-'`,
whatever precedes it ends in `'-'` (or is empty), and whatever follows it
starts with `'-'` (or is empty). -/
def IsMaxRun (cs pre run post : List Char) : Prop :=
  cs = pre ++ run ++ post ∧ run ≠ [] ∧ (∀ c ∈ run, c ≠ '-') ∧
  (∀ c, pre.getLast? = some c → c = '-') ∧
  (∀ c, post.head? = some c → c = '-')

/-- Prepending a don't-care symbol extends the prefix of a maximal run. -/
theorem isMaxRun_cons_dash {c : Char} {rest pre run post : List Char}
    (hc : c = '-') (h : IsMaxRun rest pre run post) :
    IsMaxRun (c :: rest) (c :: pre) run post := by
  obtain ⟨hcs, hne, hnd, hpl, hph⟩ := h
  refine ⟨by rw [hcs]; rfl, hne, hnd, ?_, hph⟩
  intro ch hch
  cases pre with
  | nil =>
    simp only [List.getLast?_singleton, Option.some.injEq] at hch
    rw [← hch]; exact hc
  | cons p ps => rw [List.getLast?_cons_cons] at hch; exact hpl ch hch

/-- A maximal run of a list starting with a don't-care symbol has that
symbol at the head of its prefix. -/
theorem isMaxRun_uncons_dash {c : Char} {rest pre run post : List Char}
    (hc : c = '-') (h : IsMaxRun (c :: rest) pre run post) :
    ∃ pre', pre = c :: pre' ∧ IsMaxRun rest pre' run post := by
  obtain ⟨hcs, hne, hnd, hpl, hph⟩ := h
  cases pre with
  | nil =>
    exfalso
    cases run with
    | nil => exact hne rfl
    | cons r rs =>
      simp only [List.nil_append, List.cons_append, List.cons.injEq] at hcs
      exact hnd r (List.mem_cons_self r rs) (hcs.1.symm.trans hc)
  | cons p ps =>
    simp only [List.cons_append, List.cons.injEq] at hcs
    refine ⟨ps, by rw [hcs.1], hcs.2, hne, hnd, ?_, hph⟩
    intro ch hch
    apply hpl ch
    cases ps with
    | nil => simp at hch
    | cons a as => rw [List.getLast?_cons_cons]; exact hch

/-- Uniqueness of the takeWhile/dropWhile decomposition: if `l` splits as
an all-`q` block followed by a tail whose head fails `q`, the block is
`takeWhile q l` and the tail is `dropWhile q l`. -/
theorem takeWhile_decomp_unique {α : Type} (q : α → Bool) :
    ∀ (run post : List α), (∀ a ∈ run, q a = true) →
      (∀ a, post.head? = some a → q a = false) →
      run = (run ++ post).takeWhile q ∧ post = (run ++ post).dropWhile q := by
  intro run
  induction run with
  | nil =>
    intro post _ hpost
    cases post with
    | nil => exact ⟨rfl, rfl⟩
    | cons a as =>
      have ha : q a = false := hpost a rfl
      simp only [List.nil_append]
      rw [List.takeWhile_cons_of_neg (by simp [ha]),
        List.dropWhile_cons_of_neg (by simp [ha])]
      exact ⟨rfl, rfl⟩
  | cons r rs ih =>
    intro post hrun hpost
    have hr : q r = true := hrun r (List.mem_cons_self r rs)
    simp only [List.cons_append]
    rw [List.takeWhile_cons_of_pos (by simp [hr]),
      List.dropWhile_cons_of_pos (by simp [hr])]
    obtain ⟨h1, h2⟩ := ih post
      (fun a ha => hrun a (List.mem_cons_of_mem r ha)) hpost
    exact ⟨by rw [← h1], h2⟩

/-- The block starting at a non-don't-care head is a maximal run with an
empty prefix. -/
theorem isMaxRun_head {c : Char} {rest : List Char} (hc : c ≠ '-') :
    IsMaxRun (c :: rest) [] (c :: rest.takeWhile notDash)
      (rest.dropWhile notDash) := by
  refine ⟨?_, by simp, ?_, by simp, ?_⟩
  · simp [List.takeWhile_append_dropWhile]
  · intro a ha
    rcases List.mem_cons.mp ha with rfl | ha
    · exact hc
    · simpa using List.mem_takeWhile_imp ha
  · intro a ha
    have h := List.head?_dropWhile_not notDash rest
    rw [ha] at h
    simpa using h

/-- A maximal run of the dropWhile tail lifts to a maximal run of the
whole list, with the head block prepended to its prefix. -/
theorem isMaxRun_lift {c : Char} {rest pre₂ run post : List Char} (hc : c ≠ '-')
    (h : IsMaxRun (rest.dropWhile notDash) pre₂ run post) :
    pre₂ ≠ []
    ∧ IsMaxRun (c :: rest) ((c :: rest.takeWhile notDash) ++ pre₂) run post := by
  obtain ⟨hcs, hne, hnd, hpl, hph⟩ := h
  have hpre₂ : pre₂ ≠ [] := by
    intro hnil
    subst hnil
    simp only [List.nil_append] at hcs
    cases run with
    | nil => exact hne rfl
    | cons r rs =>
      have hh := List.head?_dropWhile_not notDash rest
      rw [hcs] at hh
      simp only [List.cons_append, List.head?_cons] at hh
      exact hnd r (List.mem_cons_self r rs) (by simpa using hh)
  refine ⟨hpre₂, ?_, hne, hnd, ?_, hph⟩
  · have hsplit : rest.takeWhile notDash ++ rest.dropWhile notDash = rest :=
      List.takeWhile_append_dropWhile notDash rest
    conv_lhs => rw [← hsplit]
    rw [hcs]
    simp [List.append_assoc]
  · intro ch hch
    rw [List.getLast?_append] at hch
    cases hgl : pre₂.getLast? with
    | none => exact absurd (List.getLast?_eq_none_iff.mp hgl) hpre₂
    | some y =>
      rw [hgl] at hch
      simp only [Option.or_some, Option.some.injEq] at hch
      exact hch ▸ hpl y hgl

/-- Conversely, a maximal run of the whole list with a non-empty prefix is
a maximal run of the dropWhile tail: the prefix must begin with the whole
head block. -/
theorem isMaxRun_unlift {c : Char} {rest pre run post : List Char} (hc : c ≠ '-')
    (hpre : pre ≠ []) (h : IsMaxRun (c :: rest) pre run post) :
    ∃ pre₂, pre = (c :: rest.takeWhile notDash) ++ pre₂ ∧ pre₂ ≠ []
      ∧ IsMaxRun (rest.dropWhile notDash) pre₂ run post := by
  obtain ⟨hcs, hne, hnd, hpl, hph⟩ := h
  have htw : (c :: rest).takeWhile notDash = c :: rest.takeWhile notDash :=
    List.takeWhile_cons_of_pos (by simpa using hc)
  have hdw : (c :: rest).dropWhile notDash = rest.dropWhile notDash :=
    List.dropWhile_cons_of_pos (by simpa using hc)
  have hsplit : (c :: rest.takeWhile notDash) ++ rest.dropWhile notDash = c :: rest := by
    rw [← htw, ← hdw]
    exact List.takeWhile_append_dropWhile notDash (c :: rest)
  have hlast : pre.getLast? = some '-' := by
    cases hgl : pre.getLast? with
    | none => exact absurd (List.getLast?_eq_none_iff.mp hgl) hpre
    | some y => rw [hpl y hgl]
  have hpfx_pre : pre <+: (c :: rest) :=
    ⟨run ++ post, by rw [← List.append_assoc]; exact hcs.symm⟩
  have hpfx_run0 : (c :: rest.takeWhile notDash) <+: (c :: rest) := by
    rw [← htw]
    exact List.takeWhile_prefix notDash
  have hpre_take := List.prefix_iff_eq_take.mp hpfx_pre
  have hrun0_take := List.prefix_iff_eq_take.mp hpfx_run0
  have hlast_eq : pre.getLast hpre = '-' := by
    have h1 := List.getLast_mem_getLast? hpre
    rw [Option.mem_def, hlast] at h1
    injection h1 with h1
    exact h1.symm
  have hlt : (c :: rest.takeWhile notDash).length < pre.length := by
    by_contra hle
    push_neg at hle
    have hpre_sub : pre = (c :: rest.takeWhile notDash).take pre.length := by
      conv_lhs => rw [hpre_take]
      rw [hrun0_take, List.take_take]
      congr 1
      omega
    have hmem : pre.getLast hpre ∈ c :: rest.takeWhile notDash := by
      apply List.take_subset pre.length
      rw [← hpre_sub]
      exact List.getLast_mem hpre
    rcases List.mem_cons.mp hmem with heq | hmem'
    · rw [hlast_eq] at heq
      exact hc heq.symm
    · have hq' := List.mem_takeWhile_imp hmem'
      rw [hlast_eq] at hq'
      simp at hq'
  have htake : pre.take (c :: rest.takeWhile notDash).length
      = c :: rest.takeWhile notDash := by
    conv_lhs => rw [hpre_take]
    rw [List.take_take]
    rw [show min (c :: rest.takeWhile notDash).length pre.length
        = (c :: rest.takeWhile notDash).length from by omega]
    exact hrun0_take.symm
  have hpre_eq : pre = (c :: rest.takeWhile notDash)
      ++ pre.drop (c :: rest.takeWhile notDash).length := by
    nth_rewrite 1 [← List.take_append_drop (c :: rest.takeWhile notDash).length pre]
    rw [htake]
  refine ⟨pre.drop (c :: rest.takeWhile notDash).length, hpre_eq, ?_, ?_, hne, hnd, ?_, hph⟩
  · intro hnil
    have := congrArg List.length hnil
    rw [List.length_drop] at this
    simp only [List.length_nil] at this
    omega
  · have hcl : (c :: rest.takeWhile notDash) ++ rest.dropWhile notDash
        = (c :: rest.takeWhile notDash)
          ++ (pre.drop (c :: rest.takeWhile notDash).length ++ run ++ post) := by
      conv_lhs => rw [hsplit, hcs, hpre_eq]
      simp [List.append_assoc]
    exact List.append_cancel_left hcl
  · intro ch hch
    have hch' : pre.getLast? = some ch := by
      rw [hpre_eq, List.getLast?_append, hch]
      rfl
    rw [hlast] at hch'
    injection hch' with h'
    exact h'.symm

/-- A maximal run cannot live inside the empty list. -/
theorem isMaxRun_nil {pre run post : List Char} (h : IsMaxRun [] pre run post) :
    False := by
  obtain ⟨hcs, hne, -, -, -⟩ := h
  have := congrArg List.length hcs
  simp only [List.length_nil, List.length_append] at this
  exact hne (List.eq_nil_of_length_eq_zero (by omega))

/-- Characterization of the constant-run scan: a field is emitted exactly
for each maximal run of non-don't-care symbols, positioned by the length
of what precedes the run. -/
theorem scanConstsF_mem_iff :
    ∀ (fuel : Nat) (cs : List Char) (bit : Int), cs.length ≤ fuel →
      ∀ f : Field,
        (f ∈ scanConstsF fuel cs bit ↔
          ∃ pre run post, IsMaxRun cs pre run post
            ∧ f = mkConstField (bit - pre.length) run) := by
  intro fuel
  induction fuel with
  | zero =>
    intro cs bit hlen f
    have hcs : cs = [] := List.eq_nil_of_length_eq_zero (Nat.le_zero.mp hlen)
    subst hcs
    simp only [scanConstsF, List.not_mem_nil, false_iff]
    rintro ⟨pre, run, post, hmr, -⟩
    exact isMaxRun_nil hmr
  | succ fuel ih =>
    intro cs bit hlen f
    match cs with
    | [] =>
      simp only [scanConstsF, List.not_mem_nil, false_iff]
      rintro ⟨pre, run, post, hmr, -⟩
      exact isMaxRun_nil hmr
    | c :: rest =>
      have hlen' : rest.length ≤ fuel := by
        simp only [List.length_cons] at hlen
        omega
      by_cases hc : c = '-'
      · rw [show scanConstsF (fuel + 1) (c :: rest) bit
            = scanConstsF fuel rest (bit - 1) from by
          simp [scanConstsF, hc]]
        rw [ih rest (bit - 1) hlen' f]
        constructor
        · rintro ⟨pre, run, post, hmr, hf⟩
          refine ⟨c :: pre, run, post, isMaxRun_cons_dash hc hmr, ?_⟩
          rw [hf]
          congr 1
          simp only [List.length_cons]
          push_cast
          ring
        · rintro ⟨pre, run, post, hmr, hf⟩
          obtain ⟨pre', rfl, hmr'⟩ := isMaxRun_uncons_dash hc hmr
          refine ⟨pre', run, post, hmr', ?_⟩
          rw [hf]
          congr 1
          simp only [List.length_cons]
          push_cast
          ring
      · have hdlen : (rest.dropWhile notDash).length ≤ fuel :=
          le_trans (List.IsSuffix.length_le (List.dropWhile_suffix notDash)) hlen'
        rw [show scanConstsF (fuel + 1) (c :: rest) bit
            = mkConstField bit (c :: rest.takeWhile notDash)
              :: scanConstsF fuel (rest.dropWhile notDash)
                (bit - (c :: rest.takeWhile notDash).length) from by
          simp [scanConstsF, hc]]
        constructor
        · intro hmem
          rcases List.mem_cons.mp hmem with rfl | htail
          · refine ⟨[], c :: rest.takeWhile notDash, rest.dropWhile notDash,
              isMaxRun_head hc, ?_⟩
            congr 1
            simp
          · obtain ⟨pre₂, run, post, hmr₂, hf⟩ :=
              (ih (rest.dropWhile notDash)
                (bit - (c :: rest.takeWhile notDash).length) hdlen f).mp htail
            obtain ⟨hpre₂, hmr⟩ := isMaxRun_lift hc hmr₂
            refine ⟨(c :: rest.takeWhile notDash) ++ pre₂, run, post, hmr, ?_⟩
            rw [hf]
            congr 1
            simp only [List.length_append, List.length_cons]
            push_cast
            ring
        · rintro ⟨pre, run, post, hmr, hf⟩
          by_cases hpre : pre = []
          · subst hpre
            obtain ⟨hcs2, hne, hnd, -, hph⟩ := hmr
            simp only [List.nil_append] at hcs2
            obtain ⟨h1, h2⟩ := takeWhile_decomp_unique notDash run post
              (fun a ha => by simpa using hnd a ha)
              (fun a ha => by rw [hph a ha]; simp [notDash])
            rw [← hcs2] at h1 h2
            have hrun : run = c :: rest.takeWhile notDash := by
              rw [h1, List.takeWhile_cons_of_pos (by simpa using hc)]
            have hf' : f = mkConstField bit (c :: rest.takeWhile notDash) := by
              rw [hf, hrun]
              congr 1
              simp
            rw [hf']
            exact List.mem_cons_self _ _
          · obtain ⟨pre₂, hpre_eq, hpre₂, hmr₂⟩ := isMaxRun_unlift hc hpre hmr
            apply List.mem_cons_of_mem
            apply (ih (rest.dropWhile notDash)
              (bit - (c :: rest.takeWhile notDash).length) hdlen f).mpr
            refine ⟨pre₂, run, post, hmr₂, ?_⟩
            rw [hf, hpre_eq]
            congr 1
            simp only [List.length_append, List.length_cons]
            push_cast
            ring

/-- Variable specs only ever produce fields of kind `"var"`. -/
theorem computeVarFields_kind {vs : List VarSpec} {f : Field}
    (hf : f ∈ computeVarFields vs) : f.kind = "var" := by
  unfold computeVarFields at hf
  obtain ⟨v, -, hv⟩ := List.mem_filterMap.mp hf
  unfold varFieldOf at hv
  split at hv
  · exact absurd hv (by simp)
  · injection hv with h
    subst h
    rfl

/-- The constant-field part of `computeFields`, characterized by maximal
runs (loop start `bit = m.length - 1`). -/
theorem computeConstFields_mem_iff (m : List Char) (f : Field) :
    f ∈ computeConstFields m ↔
      ∃ pre run post, IsMaxRun m pre run post
        ∧ f = mkConstField (Int.ofNat m.length - 1 - pre.length) run :=
  scanConstsF_mem_iff m.length m (Int.ofNat m.length - 1) (le_refl _) f

/-- C7: `computeFields` emits exactly one Constant field per maximal run
of non-don't-care symbols of the parsed match pattern (zero-width runs
are skipped since a run is non-empty by definition), spanning that run
and labeled by `constLabel` — `funct7=` exactly on span `[31,25]`,
`funct3=` on `[14,12]`, `opcode=` on `[6,0]`, `const=` elsewhere, as the
two concrete examples show. -/
theorem computeFields_const_runs :
    (∀ (enc : Encoding) (m : List Char),
        parseMatchBits (enc.matchStr.getD "") = some m →
        ∀ f : Field,
          (f ∈ computeFields enc ∧ f.kind = "const") ↔
            (∃ pre run post, IsMaxRun m pre run post
              ∧ f = mkConstField (Int.ofNat m.length - 1 - pre.length) run))
    ∧ computeFields ⟨some "0000000----------000-----0110011",
        [⟨"xs2", some "24-20"⟩, ⟨"xs1", some "19-15"⟩, ⟨"xd", some "11-7"⟩]⟩
      = [⟨"funct7=0000000", 31, 25, 7, "const", none⟩,
         ⟨"xs2", 24, 20, 5, "var", some [⟨24, 20⟩]⟩,
         ⟨"xs1", 19, 15, 5, "var", some [⟨19, 15⟩]⟩,
         ⟨"funct3=000", 14, 12, 3, "const", none⟩,
         ⟨"xd", 11, 7, 5, "var", some [⟨11, 7⟩]⟩,
         ⟨"opcode=0110011", 6, 0, 7, "const", none⟩]
    ∧ computeConstFields ('1' :: List.replicate 31 '-')
      = [⟨"const=1", 31, 31, 1, "const", none⟩] := by
  refine ⟨?_, by decide, by decide⟩
  intro enc m hm f
  have hunf : computeFields enc
      = sortFields (computeVarFields enc.vars ++ computeConstFields m) := by
    unfold computeFields
    rw [hm]
  rw [hunf]
  constructor
  · rintro ⟨hmem, hkind⟩
    have hmem' : f ∈ computeVarFields enc.vars ++ computeConstFields m := by
      simpa [sortFields] using hmem
    rcases List.mem_append.mp hmem' with hv | hcst
    · have h1 := computeVarFields_kind hv
      rw [hkind] at h1
      exact absurd h1 (by decide)
    · exact (computeConstFields_mem_iff m f).mp hcst
  · intro hex
    have hmem : f ∈ computeConstFields m := (computeConstFields_mem_iff m f).mpr hex
    constructor
    · simp only [sortFields, List.mem_insertionSort, List.mem_append]
      exact Or.inr hmem
    · obtain ⟨pre, run, post, -, hf⟩ := hex
      rw [hf]
      rfl

/-- C7 witness: the theorem applied to a concrete R-type encoding and its
`funct7` constant field. -/
theorem computeFields_const_runs_witness :
    parseMatchBits
        ((⟨some "0000000----------000-----0110011",
          [⟨"xs2", some "24-20"⟩]⟩ : Encoding).matchStr.getD "")
      = some "0000000----------000-----0110011".data
    ∧ ((⟨"funct7=0000000", 31, 25, 7, "const", none⟩ : Field) ∈
          computeFields ⟨some "0000000----------000-----0110011",
            [⟨"xs2", some "24-20"⟩]⟩
        ∧ (⟨"funct7=0000000", 31, 25, 7, "const", none⟩ : Field).kind = "const")
    ∧ (∃ pre run post,
        IsMaxRun "0000000----------000-----0110011".data pre run post
        ∧ (⟨"funct7=0000000", 31, 25, 7, "const", none⟩ : Field)
            = mkConstField
                (Int.ofNat "0000000----------000-----0110011".data.length - 1
                  - pre.length) run) :=
  ⟨by decide,
   ⟨by decide, by decide⟩,
   (computeFields_const_runs.1
      ⟨some "0000000----------000-----0110011", [⟨"xs2", some "24-20"⟩]⟩
      "0000000----------000-----0110011".data (by decide)
      ⟨"funct7=0000000", 31, 25, 7, "const", none⟩).mp ⟨by decide, by decide⟩⟩

end Rvref
